import Mathlib

/-!
Verification development for the statute-parsing core of the repository:
the footer-stripping text normalizer, the article splitter and the
chapter/section segmentation state machine, as implemented in
`law_parser.py` (class `LawDocumentParser`) and
`src/data_processing/law_parser.py` (functions `split_articles` and
`parse_law_with_sections`), together with the footer pattern of
`src/vector_db/create_vector_db.py`.

Python strings are modelled as Lean `String` (a list of characters);
`str.strip` is modelled by `pyStrip`, `''.join` by `strJoin`,
`'\n'.join` by `strIntercalate "\n"`, and the three regular expressions
of the source by explicit deterministic matchers (each regex is
deterministic after resolving greediness, as argued at the matcher).
Python dicts keyed by strings are modelled as association lists with
insertion-order-preserving update (`dictInsert`), matching dict
assignment semantics.
-/

namespace LawRag

/-- Whitespace for `str.strip` and for the `\s` class of the regexes
(the ASCII whitespace characters; the documents are Korean text with
ordinary spaces, so the distinction with full Unicode whitespace does
not arise). -/
def isWsChar (c : Char) : Bool :=
  c = ' ' || c = '\t' || c = '\n' || c = '\r' || c = '\x0b' || c = '\x0c'

/-- Remove leading and trailing whitespace from a character list. -/
def stripChars (cs : List Char) : List Char :=
  ((cs.dropWhile isWsChar).reverse.dropWhile isWsChar).reverse

/-- Model of Python `str.strip()`. -/
def pyStrip (s : String) : String := ⟨stripChars s.data⟩

/-- Model of Python `''.join(...)`: plain concatenation. -/
def strJoin : List String → String
  | [] => ""
  | s :: ss => s ++ strJoin ss

/-- Model of Python `sep.join(...)`. -/
def strIntercalate (sep : String) : List String → String
  | [] => ""
  | [s] => s
  | s :: ss => s ++ sep ++ strIntercalate sep ss

/-- First replace pass of the line-ending normalization: every
leftmost, non-overlapping CRLF pair becomes a single LF. -/
def replaceCrLf : List Char → List Char
  | '\r' :: '\n' :: cs => '\n' :: replaceCrLf cs
  | c :: cs => c :: replaceCrLf cs
  | [] => []

/-- Second replace pass: every remaining CR becomes LF. -/
def replaceCr (cs : List Char) : List Char :=
  cs.map fun c => if c = '\r' then '\n' else c

/-- Normalization of line endings performed at the start of both
segmenters: replace CRLF by LF, then lone CR by LF. -/
def normalizeNl (s : String) : String :=
  ⟨replaceCr (replaceCrLf s.data)⟩

/-- Split on the LF character, Python-style: the empty text gives one
empty piece, and a trailing separator gives a trailing empty piece. -/
def splitNlChars : List Char → List (List Char)
  | [] => [[]]
  | c :: cs =>
    match splitNlChars cs with
    | [] => [[]]
    | g :: gs => if c = '\n' then [] :: g :: gs else (c :: g) :: gs

/-- Model of Python text split on a single LF separator. -/
def splitNl (s : String) : List String :=
  (splitNlChars s.data).map fun g => (⟨g⟩ : String)

/-- Model of Python str.startswith. -/
def pyStartsWith (p l : String) : Bool := p.data.isPrefixOf l.data

/-- The normalized, per-line-stripped line list both segmenters iterate
over: split the normalized text on LF and strip every line. -/
def strippedLines (s : String) : List String :=
  (splitNl (normalizeNl s)).map pyStrip

/-- The optional group of the article-title regex: consumed characters
paired with the remainder.  It consumes nothing when 의 plus digits do
not follow, and the case where it consumes but no opening parenthesis
follows fails in `articleMatchCore` exactly as the regex does after
backtracking, because the parenthesis can never match 의. -/
def eatOpt (r3 : List Char) : List Char × List Char :=
  match r3 with
  | '의' :: r3t =>
    if r3t.takeWhile Char.isDigit = [] then (([] : List Char), '의' :: r3t)
    else ('의' :: r3t.takeWhile Char.isDigit, r3t.dropWhile Char.isDigit)
  | _ => (([] : List Char), r3)

/-- Matcher for the article-title regex used by both `split_articles`
implementations.  The regex is deterministic: the digit run is
followed by a non-digit literal, the optional group is resolved by
`eatOpt`, and the bracketed class takes everything up to the first
closing parenthesis.  Returns the matched group together with the rest
of the line. -/
def articleMatchCore (cs : List Char) : Option (List Char × List Char) :=
  match cs with
  | '제' :: r1 =>
    if r1.takeWhile Char.isDigit = [] then none else
    match r1.dropWhile Char.isDigit with
    | '조' :: r3 =>
      match (eatOpt r3).2 with
      | '(' :: r5 =>
        if r5.takeWhile (fun c => c ≠ ')') = [] then none else
        match r5.dropWhile (fun c => c ≠ ')') with
        | ')' :: r7 =>
          some ('제' :: r1.takeWhile Char.isDigit ++ '조' :: (eatOpt r3).1
            ++ '(' :: r5.takeWhile (fun c => c ≠ ')') ++ [')'], r7)
        | _ => none
      | _ => none
    | _ => none
  | _ => none

/-- The title-pattern match on a line, returning the matched group
together with the rest of the line after the group. -/
def articleTitleMatch (l : String) : Option (String × String) :=
  (articleMatchCore l.data).map fun p => (⟨p.1⟩, ⟨p.2⟩)

/-- Matcher for the chapter-header and section-header regexes (which
differ only in the marker character 장 or 절), as a Boolean
anchored-at-start test the way the source uses the compiled pattern in
a condition. -/
def headerMatchCore (marker : Char) (cs : List Char) : Bool :=
  match cs with
  | '제' :: r1 =>
    r1.takeWhile Char.isDigit ≠ [] &&
      match r1.dropWhile Char.isDigit with
      | m :: r3 =>
        m = marker && r3.takeWhile isWsChar ≠ [] && r3.dropWhile isWsChar ≠ []
      | [] => false
  | _ => false

/-- `chapter_pattern.match(line)` for `^제\d+장\s+\S+`. -/
def chapterHeaderMatch (l : String) : Bool := headerMatchCore '장' l.data

/-- `section_pattern.match(line)` for `^제\d+절\s+\S+`. -/
def sectionHeaderMatch (l : String) : Bool := headerMatchCore '절' l.data

/-- The article string built when a finished article is appended: the
title, a line break, and the separator-free join of the content
fragments. -/
def mkArticleRaw (t : String) (content : List String) : String :=
  t ++ "\n" ++ strJoin content

/-- The loop of `split_articles` (identical in `law_parser.py`
lines 53-71 and `src/data_processing/law_parser.py` lines 9-40), over
already-stripped lines, carrying `current_title` and
`current_content`.  The four arms spell out the source's nested
conditions on the title match and on whether a current title exists:
on a match, the open article (if any) is emitted and a new one starts
with the stripped rest of the line as first fragment when non-empty;
otherwise the line is appended to the open article's content, or
dropped when no article is open. -/
def splitLoop : List String → Option String → List String → List String
  | [], ct, content =>
    match ct with
    | some t => [mkArticleRaw t content]
    | none => []
  | l :: ls, ct, content =>
    if l = "" then splitLoop ls ct content
    else
      match articleTitleMatch l, ct with
      | some tr, some t0 =>
        mkArticleRaw t0 content :: splitLoop ls (some tr.1)
          (if pyStrip tr.2 = "" then [] else [pyStrip tr.2])
      | some tr, none =>
        splitLoop ls (some tr.1)
          (if pyStrip tr.2 = "" then [] else [pyStrip tr.2])
      | none, some t0 => splitLoop ls (some t0) (content ++ [l])
      | none, none => splitLoop ls none content

/-- The function `split_articles`: iterate over the stripped lines and
finally strip each collected article. -/
def split_articles (lines : List String) : List String :=
  (splitLoop (lines.map pyStrip) none []).map pyStrip

/-- Python dict assignment of value v at key k on a string-keyed dict
modelled as an association list: update in place when the key is
present (keeping its position), append otherwise. -/
def dictInsert (k : String) (v : α) : List (String × α) → List (String × α)
  | [] => [(k, v)]
  | p :: rest => if p.1 = k then (k, v) :: rest else p :: dictInsert k v rest

/-- A chapter's value in the result: section label to article list. -/
abbrev Sections := List (String × List String)

/-- The result dict of both segmenters with its three keys:
`seomun` = 서문 (preamble), `jang` = 장 (chapter map),
`buchik` = 부칙 (addendum). -/
structure Parsed where
  seomun : String
  jang : List (String × Sections)
  buchik : String
deriving DecidableEq, Repr

/-- The mutable loop state of the segmenters. -/
structure SegState where
  currentChapter : Option String
  currentSection : Option String
  chapterBuffer : List (String × List String)
  buffer : List String
  preambleDone : Bool
  seomun : String
  jang : List (String × Sections)
deriving Repr

/-- Initial loop state. -/
def initSeg : SegState :=
  { currentChapter := none, currentSection := none, chapterBuffer := []
    buffer := [], preambleDone := false, seomun := "", jang := [] }

/-- The buffer flush shared by every boundary transition: when a
section is open the buffer is stored under its header, otherwise a
non-empty buffer is stored under the default label 조문. -/
def flushCB (st : SegState) : List (String × List String) :=
  match st.currentSection with
  | some s => dictInsert s st.buffer st.chapterBuffer
  | none =>
    if st.buffer = [] then st.chapterBuffer
    else dictInsert "조문" st.buffer st.chapterBuffer

/-- Chapter finalization (after the buffer flush): when a chapter is
open, store under its header the flushed chapter buffer with
`split_articles` applied to every section value. -/
def finalizeChapter (st : SegState) : List (String × Sections) :=
  match st.currentChapter with
  | some c =>
    dictInsert c (st.chapterBuffer.map fun p => (p.1, split_articles p.2))
      st.jang
  | none => st.jang

/-- One pass of the segmentation loop, common to
`LawDocumentParser.parse_law_structure` (`law_parser.py` 93-143) and
`parse_law_with_sections` (`src/data_processing/law_parser.py` 68-124);
the two sources are line-for-line identical except for the addendum
value stored at the 부칙 key, supplied here as `adn line i` (the
enumeration index `i` counts every line of the stripped line list,
blank ones included). -/
def segLoop (adn : String → Nat → String) :
    List String → Nat → SegState → Parsed
  | [], _, st =>
    { seomun := st.seomun
      jang := finalizeChapter { st with chapterBuffer := flushCB st }
      buchik := "" }
  | line :: rest, i, st =>
    if line = "" then segLoop adn rest (i + 1) st
    else if pyStartsWith "부칙" line then
      { seomun := st.seomun
        jang := finalizeChapter { st with chapterBuffer := flushCB st }
        buchik := adn line i }
    else if chapterHeaderMatch line then
      let st' :=
        if st.preambleDone = false then
          { st with seomun := pyStrip (strIntercalate "\n" st.buffer)
                    preambleDone := true }
        else if st.currentChapter.isSome then
          { st with jang := finalizeChapter { st with chapterBuffer := flushCB st } }
        else st
      segLoop adn rest (i + 1)
        { st' with currentChapter := some line, chapterBuffer := []
                   currentSection := none, buffer := [] }
    else if sectionHeaderMatch line then
      segLoop adn rest (i + 1)
        { st with chapterBuffer := flushCB st, currentSection := some line
                  buffer := [] }
    else
      segLoop adn rest (i + 1) { st with buffer := st.buffer ++ [line] }

/-- `LawDocumentParser.parse_law_structure` (`law_parser.py` 74-145):
on the addendum marker it stores the marker line only as the
addendum. -/
def parse_law_structure (law_text : String) : Parsed :=
  segLoop (fun line _ => line) (strippedLines law_text) 0 initSeg

/-- `parse_law_with_sections` (`src/data_processing/law_parser.py`
45-126): on the addendum marker at index i it joins the marker line
with the slice starting at offset i + 1 of the list built by draining
the line iterator.  That iterator was already consumed up to and
including index i, so the drained list is the stripped tail after
index i, and the further slice starts at index 2 * i + 2 of the full
stripped line list; the join is stripped at the end. -/
def parse_law_with_sections (law_text : String) : Parsed :=
  let lines := strippedLines law_text
  segLoop
    (fun line i => pyStrip (strIntercalate "\n" (line :: lines.drop (2 * i + 2))))
    lines 0 initSeg

/-- Matcher for the tail `\s*\n<name>` of the footer regex: `\s*` is
greedy and `\s` contains `\n`, so with backtracking the engine takes
the longest whitespace run whose next consumed character is `\n` and
after which the literal name matches; candidates are tried from the
longest whitespace prefix downward. -/
def matchWsNlName (name : List Char) : List Char → Option (List Char)
  | [] => none
  | c :: cs =>
    if isWsChar c then
      match matchWsNlName name cs with
      | some r => some r
      | none =>
        if c = '\n' && name.isPrefixOf cs then some (cs.drop name.length)
        else none
    else none

/-- Consume a literal at the head of the input. -/
def eatLit (lit cs : List Char) : Option (List Char) :=
  if lit.isPrefixOf cs then some (cs.drop lit.length) else none

/-- Consume one or more whitespace characters greedily. -/
def eatWs1 (cs : List Char) : Option (List Char) :=
  if cs.takeWhile isWsChar = [] then none else some (cs.dropWhile isWsChar)

/-- Consume one or more digits greedily. -/
def eatDigits1 (cs : List Char) : Option (List Char) :=
  if cs.takeWhile Char.isDigit = [] then none else some (cs.dropWhile Char.isDigit)

/-- Matcher for the footer regex: the agency literal, whitespace, a
page number, whitespace, the registry literal, then the whitespace-dot
newline tail followed by the escaped law name.  Greediness is harmless
here because each greedy class is followed by a literal outside the
class, except for the final tail handled by `matchWsNlName`.  Returns
the rest after the match. -/
def matchFooter (name : List Char) (cs : List Char) : Option (List Char) :=
  (eatLit "법제처".data cs).bind fun r1 =>
    (eatWs1 r1).bind fun r2 =>
      (eatDigits1 r2).bind fun r3 =>
        (eatWs1 r3).bind fun r4 =>
          (eatLit "국가법령정보센터".data r4).bind fun r5 =>
            matchWsNlName name r5

/-- The substitution loop of the footer pattern with the empty
replacement, at the character-list level: leftmost-first,
non-overlapping removal of every match, continuing after the removed
text.  The fuel argument only makes the recursion structural; by
`matchFooter_length` a match always consumes at least one character,
so fuel equal to the input length (as supplied by `footerSubChars`)
never runs out, which `footerSubGo_fuel` makes precise. -/
def footerSubGo (name : List Char) : Nat → List Char → List Char
  | _, [] => []
  | 0, cs => cs
  | fuel + 1, c :: cs =>
    match matchFooter name (c :: cs) with
    | some rest => footerSubGo name fuel rest
    | none => c :: footerSubGo name fuel cs

/-- Removal of every occurrence of the footer pattern. -/
def footerSubChars (name cs : List Char) : List Char :=
  footerSubGo name cs.length cs

/-- The footer stripper of `LawDocumentParser` (`law_parser.py` 20-23
and 37-40): the pattern is compiled from the instance's law name and
every occurrence is replaced by the empty string. -/
def footer_sub (law_name text : String) : String :=
  ⟨footerSubChars law_name.data text.data⟩

/-- The footer stripper of `src/vector_db/create_vector_db.py`
(lines 30-37): the very same pattern shape, but compiled with the
literal law name 고용보험법 regardless of the law being processed. -/
def create_vector_db_footer_sub (text : String) : String :=
  footer_sub "고용보험법" text

/-- The first line of a string: its characters up to the first line
break.  Used to read an article's title line back off the article
string, the way `create_documents` does. -/
def firstLine (s : String) : String :=
  ⟨s.data.takeWhile (fun c => c != '\n')⟩

/-- A non-empty character list that neither starts nor ends with
whitespace (the shape of any non-empty stripped string). -/
def endsOK (cs : List Char) : Prop :=
  cs ≠ [] ∧ (∀ c ∈ cs.head?, isWsChar c = false) ∧
    (∀ c ∈ cs.getLast?, isWsChar c = false)

/-- The matched groups of the article-header lines of a block, in
input order, reading each line in trimmed form as the splitter does. -/
def articleHeaderTitles (lines : List String) : List String :=
  (lines.map pyStrip).filterMap fun l => (articleTitleMatch l).map Prod.fst

/-- The number of lines of a block whose trimmed form matches the
article-header pattern. -/
def articleHeaderCount (lines : List String) : Nat :=
  (lines.map pyStrip).countP fun l => (articleTitleMatch l).isSome

theorem matchWsNlName_length (name : List Char) :
    ∀ cs r, matchWsNlName name cs = some r → r.length ≤ cs.length := by
  intro cs
  induction cs with
  | nil => intro r h; simp [matchWsNlName] at h
  | cons c cs ih =>
    intro r h
    simp only [matchWsNlName] at h
    split at h
    · split at h
      · rename_i r1 hrec
        cases h
        have hr := ih r hrec
        simp only [List.length_cons]
        omega
      · split at h
        · cases h
          simp only [List.length_cons, List.length_drop]
          omega
        · cases h
    · cases h

theorem eatLit_length (lit cs r : List Char) (h : eatLit lit cs = some r) :
    r.length + lit.length = cs.length := by
  unfold eatLit at h
  split at h
  · cases h
    rename_i hp
    have hle : lit.length ≤ cs.length :=
      (List.isPrefixOf_iff_prefix.mp hp).length_le
    rw [List.length_drop]
    omega
  · cases h

theorem eatWs1_length (cs r : List Char) (h : eatWs1 cs = some r) :
    r.length < cs.length := by
  unfold eatWs1 at h
  split at h
  · cases h
  · cases h
    rename_i hne
    have h1 : (cs.takeWhile isWsChar).length + (cs.dropWhile isWsChar).length
        = cs.length := by
      rw [← List.length_append, List.takeWhile_append_dropWhile]
    have h2 : (cs.takeWhile isWsChar).length ≠ 0 := by
      simpa using hne
    omega

theorem eatDigits1_length (cs r : List Char) (h : eatDigits1 cs = some r) :
    r.length < cs.length := by
  unfold eatDigits1 at h
  split at h
  · cases h
  · cases h
    rename_i hne
    have h1 : (cs.takeWhile Char.isDigit).length
        + (cs.dropWhile Char.isDigit).length = cs.length := by
      rw [← List.length_append, List.takeWhile_append_dropWhile]
    have h2 : (cs.takeWhile Char.isDigit).length ≠ 0 := by
      simpa using hne
    omega

theorem matchFooter_length (name : List Char) (cs r : List Char)
    (h : matchFooter name cs = some r) : r.length < cs.length := by
  unfold matchFooter at h
  rw [Option.bind_eq_some] at h
  obtain ⟨r1, h1, h⟩ := h
  rw [Option.bind_eq_some] at h
  obtain ⟨r2, h2, h⟩ := h
  rw [Option.bind_eq_some] at h
  obtain ⟨r3, h3, h⟩ := h
  rw [Option.bind_eq_some] at h
  obtain ⟨r4, h4, h⟩ := h
  rw [Option.bind_eq_some] at h
  obtain ⟨r5, h5, h⟩ := h
  have e1 := eatLit_length _ _ _ h1
  have e2 := eatWs1_length _ _ h2
  have e3 := eatDigits1_length _ _ h3
  have e4 := eatWs1_length _ _ h4
  have e5 := eatLit_length _ _ _ h5
  have e6 := matchWsNlName_length name _ _ h
  omega

theorem footerSubGo_nil (name : List Char) (fuel : Nat) :
    footerSubGo name fuel [] = [] := by
  cases fuel <;> rfl

theorem footerSubGo_fuel_irrel (name : List Char) :
    ∀ fuel1 fuel2 cs, cs.length ≤ fuel1 → cs.length ≤ fuel2 →
      footerSubGo name fuel1 cs = footerSubGo name fuel2 cs := by
  intro fuel1
  induction fuel1 with
  | zero =>
    intro fuel2 cs h1 _
    have : cs = [] := by
      cases cs
      · rfl
      · simp at h1
    subst this
    rw [footerSubGo_nil, footerSubGo_nil]
  | succ fuel1 ih =>
    intro fuel2 cs h1 h2
    match cs with
    | [] => rw [footerSubGo_nil, footerSubGo_nil]
    | c :: cs =>
      match fuel2 with
      | 0 => simp at h2
      | fuel2 + 1 =>
        rw [footerSubGo, footerSubGo]
        cases hm : matchFooter name (c :: cs) with
        | some rest =>
          have hlen := matchFooter_length name (c :: cs) rest hm
          simp only [List.length_cons] at h1 h2 hlen
          exact ih fuel2 rest (by omega) (by omega)
        | none =>
          simp only [List.length_cons] at h1 h2
          rw [ih fuel2 cs (by omega) (by omega)]

/-- Fuel equal to the input length always suffices. -/
theorem footerSubGo_fuel (name : List Char) (fuel : Nat) (cs : List Char)
    (h : cs.length ≤ fuel) : footerSubGo name fuel cs = footerSubChars name cs :=
  footerSubGo_fuel_irrel name fuel cs.length cs h (le_refl _)

theorem strData_append (a b : String) : (a ++ b).data = a.data ++ b.data := rfl

theorem string_eq_of_data (a b : String) (h : a.data = b.data) : a = b := by
  cases a
  cases b
  simp only at h
  rw [h]

theorem string_data_eq_nil_iff (s : String) : s.data = [] ↔ s = "" := by
  constructor
  · intro h; exact string_eq_of_data _ _ (by simpa using h)
  · intro h; subst h; rfl

theorem pyStrip_data (s : String) : (pyStrip s).data = stripChars s.data := rfl

theorem dropWhile_of_head (p : Char → Bool) (l : List Char)
    (h : ∀ c ∈ l.head?, p c = false) : l.dropWhile p = l := by
  cases l with
  | nil => rfl
  | cons c cs =>
    have hc := h c (by simp)
    simp [List.dropWhile_cons, hc]

theorem head_dropWhile (p : Char → Bool) (l : List Char) :
    ∀ c ∈ (l.dropWhile p).head?, p c = false := by
  induction l with
  | nil => simp [List.dropWhile]
  | cons a l ih =>
    intro c hc
    rw [List.dropWhile_cons] at hc
    by_cases hp : p a
    · rw [if_pos hp] at hc
      exact ih c hc
    · rw [if_neg hp] at hc
      simp only [List.head?_cons, Option.mem_def, Option.some.injEq] at hc
      subst hc
      simpa using hp

theorem getLast?_dropWhile (p : Char → Bool) (l : List Char)
    (h : l.dropWhile p ≠ []) : (l.dropWhile p).getLast? = l.getLast? := by
  induction l with
  | nil => simp [List.dropWhile] at h
  | cons a l ih =>
    rw [List.dropWhile_cons] at h ⊢
    by_cases hp : p a
    · rw [if_pos hp] at h ⊢
      rw [ih h]
      cases l with
      | nil => simp [List.dropWhile] at h
      | cons b m => rw [List.getLast?_cons_cons]
    · rw [if_neg hp]

theorem stripChars_eq_self (cs : List Char) (h : endsOK cs) : stripChars cs = cs := by
  obtain ⟨hne, hh, hl⟩ := h
  unfold stripChars
  rw [dropWhile_of_head _ _ hh]
  rw [dropWhile_of_head]
  · exact List.reverse_reverse cs
  · intro c hc
    rw [List.head?_reverse] at hc
    exact hl c hc

theorem stripChars_endsOK (cs : List Char) (h : stripChars cs ≠ []) :
    endsOK (stripChars cs) := by
  refine ⟨h, ?_, ?_⟩
  · intro c hc
    unfold stripChars at hc
    rw [List.head?_reverse] at hc
    have hene : (cs.dropWhile isWsChar).reverse.dropWhile isWsChar ≠ [] := by
      intro h0
      apply h
      unfold stripChars
      rw [h0]
      rfl
    rw [getLast?_dropWhile _ _ hene, List.getLast?_reverse] at hc
    exact head_dropWhile isWsChar cs c hc
  · intro c hc
    unfold stripChars at hc
    rw [List.getLast?_reverse] at hc
    exact head_dropWhile isWsChar _ c hc

theorem stripChars_idem (cs : List Char) :
    stripChars (stripChars cs) = stripChars cs := by
  by_cases h : stripChars cs = []
  · rw [h]; rfl
  · exact stripChars_eq_self _ (stripChars_endsOK cs h)

theorem pyStrip_idem (s : String) : pyStrip (pyStrip s) = pyStrip s := by
  apply string_eq_of_data
  rw [pyStrip_data, pyStrip_data, stripChars_idem]

theorem mem_stripChars (cs : List Char) (x : Char) (h : x ∈ stripChars cs) :
    x ∈ cs := by
  unfold stripChars at h
  rw [List.mem_reverse] at h
  have h1 := (List.dropWhile_sublist _).subset h
  rw [List.mem_reverse] at h1
  exact (List.dropWhile_sublist _).subset h1

theorem stripChars_append_nl (t : List Char) (h : endsOK t) :
    stripChars (t ++ ['\n']) = t := by
  obtain ⟨hne, hh, hl⟩ := h
  have h1 : List.dropWhile isWsChar (t ++ ['\n']) = t ++ ['\n'] := by
    apply dropWhile_of_head
    intro c hc
    rw [List.head?_append_of_ne_nil _ hne] at hc
    exact hh c hc
  have h2 : List.dropWhile isWsChar t.reverse = t.reverse := by
    apply dropWhile_of_head
    intro c hc
    rw [List.head?_reverse] at hc
    exact hl c hc
  unfold stripChars
  rw [h1, List.reverse_append]
  simp only [List.reverse_cons, List.reverse_nil, List.nil_append,
    List.singleton_append]
  rw [List.dropWhile_cons]
  rw [if_pos (show isWsChar '\n' = true from rfl)]
  rw [h2]
  exact List.reverse_reverse t

theorem takeWhile_all (p : Char → Bool) (l : List Char)
    (h : ∀ c ∈ l, p c = true) : l.takeWhile p = l := by
  induction l with
  | nil => rfl
  | cons a l ih =>
    rw [List.takeWhile_cons, if_pos (h a (by simp))]
    rw [ih fun c hc => h c (by simp [hc])]

theorem takeWhile_neq_nl (t r : List Char) (h : '\n' ∉ t) :
    (t ++ '\n' :: r).takeWhile (fun c => c != '\n') = t := by
  induction t with
  | nil =>
    rw [List.nil_append, List.takeWhile_cons]
    simp
  | cons a t ih =>
    rw [List.cons_append, List.takeWhile_cons]
    have ha : a ≠ '\n' := fun e => h (e ▸ List.mem_cons_self a t)
    rw [if_pos (by simpa using ha)]
    rw [ih fun hm => h (List.mem_cons_of_mem _ hm)]

theorem endsOK_append (a b : List Char) (ha : endsOK a) (hb : endsOK b) :
    endsOK (a ++ b) := by
  obtain ⟨ha1, ha2, _⟩ := ha
  obtain ⟨hb1, _, hb3⟩ := hb
  refine ⟨by simp [ha1], ?_, ?_⟩
  · rw [List.head?_append_of_ne_nil _ ha1]; exact ha2
  · rw [List.getLast?_append_of_ne_nil _ hb1]; exact hb3

theorem endsOK_strJoin : ∀ ss : List String, ss ≠ [] →
    (∀ f ∈ ss, endsOK f.data) → endsOK (strJoin ss).data := by
  intro ss
  induction ss with
  | nil => intro h; exact absurd rfl h
  | cons f fs ih =>
    intro _ hall
    cases fs with
    | nil =>
      have h1 := hall f (by simp)
      have hd : (strJoin [f]).data = f.data := by
        show (f ++ "").data = f.data
        rw [strData_append]
        simp
      rw [show strJoin [f] = f ++ strJoin [] from rfl]
      rw [show strJoin ([] : List String) = "" from rfl]
      have : (f ++ "").data = f.data := by rw [strData_append]; simp
      exact this ▸ h1
    | cons g gs =>
      have h1 := hall f (by simp)
      have h2 : endsOK (strJoin (g :: gs)).data :=
        ih (by simp) fun x hx => hall x (by simp [hx])
      have hd : (strJoin (f :: g :: gs)).data
          = f.data ++ (strJoin (g :: gs)).data := by
        show (f ++ strJoin (g :: gs)).data = _
        rw [strData_append]
      rw [hd]
      exact endsOK_append _ _ h1 h2

theorem string_ne_empty_data (s : String) (h : s ≠ "") : s.data ≠ [] := by
  intro h0
  exact h ((string_data_eq_nil_iff s).mp h0)

theorem pyStrip_self_endsOK (l : String) (hself : pyStrip l = l) (hne : l ≠ "") :
    endsOK l.data := by
  have hd : stripChars l.data = l.data := by
    have := congrArg String.data hself
    rw [pyStrip_data] at this
    exact this
  rw [← hd]
  exact stripChars_endsOK _ (by rw [hd]; exact string_ne_empty_data l hne)

theorem eatOpt_append (r3 : List Char) : (eatOpt r3).1 ++ (eatOpt r3).2 = r3 := by
  unfold eatOpt
  split
  · split
    · rfl
    · simp only [List.cons_append, List.cons.injEq, true_and]
      exact List.takeWhile_append_dropWhile _ _
  · rfl

theorem articleMatchCore_spec (cs t r : List Char)
    (h : articleMatchCore cs = some (t, r)) :
    t ++ r = cs ∧ t.head? = some '제' ∧ t.getLast? = some ')' := by
  rw [articleMatchCore.eq_def] at h
  split at h
  · rename_i r1
    split at h
    · exact absurd h (by simp)
    · split at h
      · rename_i hds r3 hr2
        split at h
        · rename_i r5 hst2
          split at h
          · exact absurd h (by simp)
          · split at h
            · rename_i x6 r7 hr6
              cases h
              refine ⟨?_, rfl, ?_⟩
              · have e1 : List.takeWhile (fun c => c ≠ ')') r5 ++ ')' :: r
                    = r5 := by
                  rw [← hr6]
                  exact List.takeWhile_append_dropWhile _ _
                have e2 : (eatOpt r3).1 ++ '(' :: r5 = r3 := by
                  rw [← hst2]
                  exact eatOpt_append r3
                have e3 : List.takeWhile Char.isDigit r1 ++ '조' :: r3 = r1 := by
                  rw [← hr2]
                  exact List.takeWhile_append_dropWhile _ _
                simp only [List.cons_append, List.append_assoc,
                  List.singleton_append, List.nil_append, List.cons.injEq,
                  true_and]
                rw [e1, e2, e3]
              · have heq : ('제' : Char) :: List.takeWhile Char.isDigit r1 ++
                    '조' :: (eatOpt r3).1 ++
                      '(' :: List.takeWhile (fun c => c ≠ ')') r5 ++ [')']
                    = (('제' : Char) :: List.takeWhile Char.isDigit r1 ++
                        '조' :: (eatOpt r3).1 ++
                          '(' :: List.takeWhile (fun c => c ≠ ')') r5)
                        ++ [')'] := by
                  simp [List.cons_append, List.append_assoc]
                rw [heq, List.getLast?_concat]
            · exact absurd h (by simp)
        · exact absurd h (by simp)
      · exact absurd h (by simp)
  · exact absurd h (by simp)

theorem articleTitleMatch_empty : articleTitleMatch "" = none := rfl

theorem articleTitleMatch_spec (l t r : String)
    (h : articleTitleMatch l = some (t, r)) :
    t.data ++ r.data = l.data ∧ t.data.head? = some '제' ∧
      t.data.getLast? = some ')' := by
  unfold articleTitleMatch at h
  cases hc : articleMatchCore l.data with
  | none => rw [hc] at h; cases h
  | some p =>
    rw [hc] at h
    simp only [Option.map_some'] at h
    cases h
    exact articleMatchCore_spec l.data p.1 p.2 (by rw [hc])

theorem articleTitleMatch_endsOK (l t r : String)
    (h : articleTitleMatch l = some (t, r)) : endsOK t.data := by
  obtain ⟨_, hh, hl⟩ := articleTitleMatch_spec l t r h
  refine ⟨?_, ?_, ?_⟩
  · intro h0
    rw [h0] at hh
    cases hh
  · intro c hc
    rw [hh] at hc
    simp only [Option.mem_def, Option.some.injEq] at hc
    subst hc
    rfl
  · intro c hc
    rw [hl] at hc
    simp only [Option.mem_def, Option.some.injEq] at hc
    subst hc
    rfl

theorem articleTitleMatch_noNl (l t r : String)
    (h : articleTitleMatch l = some (t, r)) (hl : '\n' ∉ l.data) :
    '\n' ∉ t.data := by
  obtain ⟨happ, _, _⟩ := articleTitleMatch_spec l t r h
  intro hm
  exact hl (happ ▸ List.mem_append.mpr (Or.inl hm))

theorem headerMatchCore_head (marker : Char) (cs : List Char)
    (h : headerMatchCore marker cs = true) : cs.head? = some '제' := by
  rw [headerMatchCore.eq_def] at h
  split at h
  · rfl
  · cases h

theorem chapterHeaderMatch_ne_empty (l : String)
    (h : chapterHeaderMatch l = true) : l ≠ "" := by
  intro h0
  subst h0
  exact absurd h (by decide)

theorem chapterHeaderMatch_not_buchik (l : String)
    (h : chapterHeaderMatch l = true) : pyStartsWith "부칙" l = false := by
  have hh := headerMatchCore_head '장' l.data h
  unfold pyStartsWith
  cases hd : l.data with
  | nil => rfl
  | cons c cs =>
    rw [hd] at hh
    simp only [List.head?_cons, Option.some.injEq] at hh
    subst hh
    rfl

theorem sectionHeaderMatch_ne_empty (l : String)
    (h : sectionHeaderMatch l = true) : l ≠ "" := by
  intro h0
  subst h0
  exact absurd h (by decide)

theorem sectionHeaderMatch_not_buchik (l : String)
    (h : sectionHeaderMatch l = true) : pyStartsWith "부칙" l = false := by
  have hh := headerMatchCore_head '절' l.data h
  unfold pyStartsWith
  cases hd : l.data with
  | nil => rfl
  | cons c cs =>
    rw [hd] at hh
    simp only [List.head?_cons, Option.some.injEq] at hh
    subst hh
    rfl

theorem sectionHeaderMatch_ne_jomun (l : String)
    (h : sectionHeaderMatch l = true) : l ≠ "조문" := by
  intro h0
  subst h0
  exact absurd h (by decide)

theorem pyStrip_endsOK (x : String) (h : pyStrip x ≠ "") :
    endsOK (pyStrip x).data := by
  rw [pyStrip_data]
  exact stripChars_endsOK _ (by
    rw [← pyStrip_data]
    exact string_ne_empty_data _ h)

theorem firstLine_article (t : String) (content : List String)
    (ht : endsOK t.data) (htn : '\n' ∉ t.data)
    (hc : ∀ f ∈ content, endsOK f.data) :
    firstLine (pyStrip (mkArticleRaw t content)) = t := by
  apply string_eq_of_data
  show List.takeWhile (fun c => c != '\n') (pyStrip (mkArticleRaw t content)).data
      = t.data
  cases content with
  | nil =>
    have hdata : (mkArticleRaw t []).data = t.data ++ ['\n'] := by
      show (t ++ "\n" ++ strJoin []).data = _
      rw [strData_append, strData_append]
      show t.data ++ ['\n'] ++ [] = _
      rw [List.append_nil]
    rw [pyStrip_data, hdata, stripChars_append_nl _ ht]
    apply takeWhile_all
    intro c hcm
    have hcne : c ≠ '\n' := fun e => htn (e ▸ hcm)
    simpa using hcne
  | cons f fs =>
    have hjoin : endsOK (strJoin (f :: fs)).data :=
      endsOK_strJoin _ (by simp) hc
    have hdata : (mkArticleRaw t (f :: fs)).data
        = t.data ++ '\n' :: (strJoin (f :: fs)).data := by
      show (t ++ "\n" ++ strJoin (f :: fs)).data = _
      rw [strData_append, strData_append]
      rw [List.append_assoc]
      rfl
    have hwhole : endsOK (t.data ++ '\n' :: (strJoin (f :: fs)).data) := by
      refine ⟨by simp [ht.1], ?_, ?_⟩
      · rw [List.head?_append_of_ne_nil _ ht.1]
        exact ht.2.1
      · rw [List.getLast?_append_of_ne_nil _ (by simp)]
        intro c hcl
        cases hj : (strJoin (f :: fs)).data with
        | nil => exact absurd hj hjoin.1
        | cons x xs =>
          rw [hj, List.getLast?_cons_cons] at hcl
          exact hjoin.2.2 c (by rw [hj]; exact hcl)
    rw [pyStrip_data, hdata, stripChars_eq_self _ hwhole]
    exact takeWhile_neq_nl _ _ htn

theorem splitLoop_titles :
    ∀ (ls : List String) (ct : Option String) (content : List String),
      (∀ l ∈ ls, pyStrip l = l ∧ '\n' ∉ l.data) →
      (∀ t, ct = some t → endsOK t.data ∧ '\n' ∉ t.data) →
      (∀ f ∈ content, endsOK f.data) →
      (splitLoop ls ct content).map (fun a => firstLine (pyStrip a))
        = ct.toList
          ++ ls.filterMap (fun l => (articleTitleMatch l).map Prod.fst) := by
  intro ls
  induction ls with
  | nil =>
    intro ct content hls hct hcon
    cases ct with
    | none => rfl
    | some t =>
      obtain ⟨h1, h2⟩ := hct t rfl
      show [firstLine (pyStrip (mkArticleRaw t content))] = _
      rw [firstLine_article t content h1 h2 hcon]
      rfl
  | cons l ls ih =>
    intro ct content hls hct hcon
    obtain ⟨hself, hnl⟩ := hls l (by simp)
    have hls' : ∀ x ∈ ls, pyStrip x = x ∧ '\n' ∉ x.data :=
      fun x hx => hls x (by simp [hx])
    by_cases hl0 : l = ""
    · subst hl0
      rw [show splitLoop ("" :: ls) ct content = splitLoop ls ct content
        from rfl]
      rw [ih ct content hls' hct hcon]
      rw [List.filterMap_cons]
      rw [articleTitleMatch_empty]
      rfl
    · cases hm : articleTitleMatch l with
      | some tr =>
        obtain ⟨t1, r1⟩ := tr
        have ht1 : endsOK t1.data := articleTitleMatch_endsOK l t1 r1 hm
        have ht1n : '\n' ∉ t1.data := articleTitleMatch_noNl l t1 r1 hm hnl
        have hct1 : ∀ t, some t1 = some t → endsOK t.data ∧ '\n' ∉ t.data := by
          intro t ht
          cases ht
          exact ⟨ht1, ht1n⟩
        have hncOK : ∀ f ∈ (if pyStrip r1 = "" then ([] : List String)
            else [pyStrip r1]), endsOK f.data := by
          intro f hf
          by_cases hr : pyStrip r1 = ""
          · rw [if_pos hr] at hf
            cases hf
          · rw [if_neg hr] at hf
            simp only [List.mem_singleton] at hf
            subst hf
            exact pyStrip_endsOK r1 hr
        cases ct with
        | none =>
          simp only [splitLoop]
          rw [if_neg hl0, hm]
          rw [ih (some t1) _ hls' hct1 hncOK]
          rw [List.filterMap_cons, hm]
          rfl
        | some t0 =>
          obtain ⟨h01, h02⟩ := hct t0 rfl
          simp only [splitLoop]
          rw [if_neg hl0, hm]
          rw [List.map_cons]
          rw [firstLine_article t0 content h01 h02 hcon]
          rw [ih (some t1) _ hls' hct1 hncOK]
          rw [List.filterMap_cons, hm]
          rfl
      | none =>
        cases ct with
        | some t0 =>
          have hconl : ∀ f ∈ content ++ [l], endsOK f.data := by
            intro f hf
            rcases List.mem_append.mp hf with hf1 | hf2
            · exact hcon f hf1
            · simp only [List.mem_singleton] at hf2
              rw [hf2]
              exact pyStrip_self_endsOK l hself hl0
          simp only [splitLoop]
          rw [if_neg hl0, hm]
          rw [ih (some t0) (content ++ [l]) hls' hct hconl]
          rw [List.filterMap_cons, hm]
          rfl
        | none =>
          simp only [splitLoop]
          rw [if_neg hl0, hm]
          rw [ih none content hls' hct hcon]
          rw [List.filterMap_cons, hm]
          rfl

theorem length_filterMap_eq_countP (f : α → Option β) (l : List α) :
    (l.filterMap f).length = l.countP fun a => (f a).isSome := by
  induction l with
  | nil => rfl
  | cons a l ih =>
    rw [List.filterMap_cons, List.countP_cons]
    cases hf : f a with
    | none => simp [hf, ih]
    | some b => simp [hf, ih]

theorem splitLoop_noMatch (tls : List String) :
    ∀ (t : String) (content : List String),
      (∀ l ∈ tls, articleTitleMatch l = none) →
      splitLoop tls (some t) content
        = [mkArticleRaw t (content ++ tls.filter fun l => l ≠ "")] := by
  induction tls with
  | nil =>
    intro t content _
    simp [splitLoop]
  | cons l ls ih =>
    intro t content h
    have hl := h l (by simp)
    have hls := fun x hx => h x (List.mem_cons_of_mem _ hx)
    by_cases hl0 : l = ""
    · subst hl0
      rw [show splitLoop ("" :: ls) (some t) content
          = splitLoop ls (some t) content from rfl]
      rw [ih t content hls]
      simp
    · simp only [splitLoop]
      rw [if_neg hl0, hl]
      show splitLoop ls (some t) (content ++ [l]) = _
      rw [ih t (content ++ [l]) hls]
      rw [List.filter_cons_of_pos (by simpa using hl0)]
      rw [List.append_assoc]
      rfl

theorem splitLoop_skip (pre : List String) :
    ∀ rest : List String,
      (∀ l ∈ pre, articleTitleMatch l = none) →
      splitLoop (pre ++ rest) none [] = splitLoop rest none [] := by
  induction pre with
  | nil => intro rest _; rfl
  | cons l ls ih =>
    intro rest h
    have hl := h l (by simp)
    have hls := fun x hx => h x (List.mem_cons_of_mem _ hx)
    by_cases hl0 : l = ""
    · subst hl0
      rw [List.cons_append]
      rw [show splitLoop ("" :: (ls ++ rest)) none []
          = splitLoop (ls ++ rest) none [] from rfl]
      exact ih rest hls
    · rw [List.cons_append]
      simp only [splitLoop]
      rw [if_neg hl0, hl]
      exact ih rest hls

/-- C2: for every block of lines (each free of embedded line breaks, as
lines are), the article splitter emits exactly one article per line
whose trimmed form matches the anchored article-header pattern, the
first lines of the emitted articles are exactly the matched header
groups in input order, and the article count equals the matching-line
count. -/
theorem claim_C2 (lines : List String) (h : ∀ l ∈ lines, '\n' ∉ l.data) :
    (split_articles lines).map firstLine = articleHeaderTitles lines ∧
      (split_articles lines).length = articleHeaderCount lines := by
  have hls : ∀ l ∈ lines.map pyStrip, pyStrip l = l ∧ '\n' ∉ l.data := by
    intro l hl
    rcases List.mem_map.mp hl with ⟨x, hx, rfl⟩
    refine ⟨pyStrip_idem x, ?_⟩
    intro hm
    rw [pyStrip_data] at hm
    exact h x hx (mem_stripChars _ _ hm)
  have key := splitLoop_titles (lines.map pyStrip) none []
    hls (by intro t ht; cases ht) (by intro f hf; cases hf)
  have main : (split_articles lines).map firstLine
      = articleHeaderTitles lines := by
    unfold split_articles articleHeaderTitles
    rw [List.map_map]
    exact key
  refine ⟨main, ?_⟩
  have h1 : (split_articles lines).length
      = ((split_articles lines).map firstLine).length :=
    (List.length_map _ _).symm
  rw [h1, main]
  unfold articleHeaderTitles articleHeaderCount
  have h2 := length_filterMap_eq_countP
    (fun l => (articleTitleMatch l).map Prod.fst) (lines.map pyStrip)
  rw [h2]
  congr 1
  funext l
  cases articleTitleMatch l <;> rfl

/-- C2 witness: the splitter on a concrete block with three header
lines. -/
theorem claim_C2_witness :
    (∀ l ∈ ["머리말", "제1조(목적) 본문", "이어서", "", "제2조(정의)",
        "제3조의2(적용) 추가"], '\n' ∉ l.data) ∧
      ((split_articles ["머리말", "제1조(목적) 본문", "이어서", "",
          "제2조(정의)", "제3조의2(적용) 추가"]).map firstLine
        = articleHeaderTitles ["머리말", "제1조(목적) 본문", "이어서", "",
            "제2조(정의)", "제3조의2(적용) 추가"] ∧
      (split_articles ["머리말", "제1조(목적) 본문", "이어서", "",
          "제2조(정의)", "제3조의2(적용) 추가"]).length
        = articleHeaderCount ["머리말", "제1조(목적) 본문", "이어서", "",
            "제2조(정의)", "제3조의2(적용) 추가"]) :=
  ⟨by decide, claim_C2 _ (by decide)⟩

/-- C8: lines preceding the first article-header match are silently
dropped: the splitter output on a block with a non-matching prefix
equals the output on the suffix alone, and a block with no header
match at all yields no articles. -/
theorem claim_C8 (pre rest : List String)
    (h : ∀ l ∈ pre, articleTitleMatch (pyStrip l) = none) :
    split_articles (pre ++ rest) = split_articles rest ∧
      split_articles pre = [] := by
  have hpre : ∀ l ∈ pre.map pyStrip, articleTitleMatch l = none := by
    intro l hl
    rcases List.mem_map.mp hl with ⟨x, hx, rfl⟩
    exact h x hx
  constructor
  · unfold split_articles
    rw [List.map_append]
    rw [splitLoop_skip (pre.map pyStrip) _ hpre]
  · unfold split_articles
    rw [← List.append_nil (pre.map pyStrip)]
    rw [splitLoop_skip (pre.map pyStrip) [] hpre]
    rfl

/-- C8 witness: two content lines before the only header line are
absent from the output. -/
theorem claim_C8_witness :
    (∀ l ∈ ["버려질 앞줄", "또 다른 앞줄"],
        articleTitleMatch (pyStrip l) = none) ∧
      (split_articles (["버려질 앞줄", "또 다른 앞줄"]
          ++ ["제1조(목적) 본문"])
        = split_articles ["제1조(목적) 본문"] ∧
      split_articles ["버려질 앞줄", "또 다른 앞줄"] = []) :=
  ⟨by decide, claim_C8 _ _ (by decide)⟩

theorem splitLoop_emit (mid : List String) :
    ∀ (t next : String) (ls content : List String) (t2 r2 : String),
      (∀ l ∈ mid, articleTitleMatch l = none) →
      articleTitleMatch next = some (t2, r2) →
      splitLoop (mid ++ next :: ls) (some t) content
        = mkArticleRaw t (content ++ mid.filter fun l => l ≠ "")
            :: splitLoop ls (some t2)
                (if pyStrip r2 = "" then [] else [pyStrip r2]) := by
  induction mid with
  | nil =>
    intro t next ls content t2 r2 _ hm
    have hne : ¬ next = "" := by
      intro h0
      rw [h0, articleTitleMatch_empty] at hm
      cases hm
    rw [List.nil_append]
    simp only [splitLoop]
    rw [if_neg hne, hm]
    simp
  | cons l mid ih =>
    intro t next ls content t2 r2 h hm
    have hl := h l (by simp)
    have hmid := fun x hx => h x (List.mem_cons_of_mem _ hx)
    rw [List.cons_append]
    by_cases hl0 : l = ""
    · subst hl0
      rw [show splitLoop ("" :: (mid ++ next :: ls)) (some t) content
          = splitLoop (mid ++ next :: ls) (some t) content from rfl]
      rw [ih t next ls content t2 r2 hmid hm]
      rw [List.filter_cons_of_neg (by decide)]
    · simp only [splitLoop]
      rw [if_neg hl0, hl]
      show splitLoop (mid ++ next :: ls) (some t) (content ++ [l]) = _
      rw [ih t next ls (content ++ [l]) t2 r2 hmid hm]
      rw [List.filter_cons_of_pos (by simpa using hl0)]
      rw [List.append_assoc]
      rfl

/-- C6: every article produced by the splitter has the claimed
composition.  Any block decomposes around any of its header lines as
pre ++ header :: mid ++ rest, where pre and mid contain no
header-matching line and rest either is empty or begins with the next
header line; the output is then the article of that header — the
stripped text following the match on the header line when non-empty as
first fragment, then the trimmed non-blank lines of mid, concatenated
with no separator after the title and a line break, the whole
stripped — consed onto the splitter output of rest.  Every article of
every block, whether closed by a later header or by the end of the
block, is covered by this decomposition. -/
theorem claim_C6 (pre : List String) (hline : String) (mid rest : List String)
    (t r : String)
    (hpre : ∀ l ∈ pre, articleTitleMatch (pyStrip l) = none)
    (hh : articleTitleMatch (pyStrip hline) = some (t, r))
    (hmid : ∀ l ∈ mid, articleTitleMatch (pyStrip l) = none)
    (hrest : rest = [] ∨ ∃ h2 rest2 t2 r2, rest = h2 :: rest2 ∧
      articleTitleMatch (pyStrip h2) = some (t2, r2)) :
    split_articles (pre ++ hline :: (mid ++ rest))
      = pyStrip (t ++ "\n" ++ strJoin
          ((if pyStrip r = "" then [] else [pyStrip r])
            ++ ((mid.map pyStrip).filter fun l => l ≠ "")))
        :: split_articles rest := by
  have hne : ¬ pyStrip hline = "" := by
    intro h0
    rw [h0, articleTitleMatch_empty] at hh
    cases hh
  have hpre' : ∀ l ∈ pre.map pyStrip, articleTitleMatch l = none := by
    intro l hl
    rcases List.mem_map.mp hl with ⟨x, hx, rfl⟩
    exact hpre x hx
  have hmid' : ∀ l ∈ mid.map pyStrip, articleTitleMatch l = none := by
    intro l hl
    rcases List.mem_map.mp hl with ⟨x, hx, rfl⟩
    exact hmid x hx
  unfold split_articles
  rw [List.map_append, List.map_cons, List.map_append]
  rw [splitLoop_skip (pre.map pyStrip) _ hpre']
  rcases hrest with hrest | ⟨h2, rest2, t2, r2, hr2, hm2⟩
  · subst hrest
    simp only [List.map_nil, List.append_nil]
    simp only [splitLoop]
    rw [if_neg hne, hh]
    show List.map pyStrip (splitLoop (mid.map pyStrip) (some t)
        (if pyStrip r = "" then [] else [pyStrip r])) = _
    rw [splitLoop_noMatch _ _ _ hmid']
    rfl
  · subst hr2
    have hne2 : ¬ pyStrip h2 = "" := by
      intro h0
      rw [h0, articleTitleMatch_empty] at hm2
      cases hm2
    rw [List.map_cons]
    simp only [splitLoop]
    rw [if_neg hne, hh]
    show List.map pyStrip
        (splitLoop (mid.map pyStrip ++ pyStrip h2 :: rest2.map pyStrip)
          (some t) (if pyStrip r = "" then [] else [pyStrip r])) = _
    rw [splitLoop_emit (mid.map pyStrip) t (pyStrip h2) (rest2.map pyStrip)
      _ t2 r2 hmid' hm2]
    rw [List.map_cons]
    rw [if_neg hne2, hm2]
    rfl

/-- C6 witness: a block with a leading dropped line and two articles,
the first closed by the second header line: its body is the stripped
rest of its header line followed by the one non-blank content line. -/
theorem claim_C6_witness :
    ((∀ l ∈ ["머리말"], articleTitleMatch (pyStrip l) = none) ∧
      articleTitleMatch (pyStrip "제1조(목적) 갑을")
        = some ("제1조(목적)", " 갑을") ∧
      (∀ l ∈ ["병정", ""], articleTitleMatch (pyStrip l) = none)) ∧
      split_articles (["머리말"] ++ "제1조(목적) 갑을"
          :: (["병정", ""] ++ ["제2조(정의) 무"]))
        = pyStrip ("제1조(목적)" ++ "\n" ++ strJoin
            ((if pyStrip " 갑을" = "" then [] else [pyStrip " 갑을"])
              ++ ((["병정", ""].map pyStrip).filter fun l => l ≠ "")))
          :: split_articles ["제2조(정의) 무"] :=
  ⟨⟨by decide, by decide, by decide⟩,
    claim_C6 ["머리말"] "제1조(목적) 갑을" ["병정", ""] ["제2조(정의) 무"]
      "제1조(목적)" " 갑을" (by decide) (by decide) (by decide)
      (Or.inr ⟨"제2조(정의) 무", [], "제2조(정의)", " 무", rfl, by decide⟩)⟩

theorem segLoop_seomun_stable (ls : List String) :
    ∀ (i : Nat) (st : SegState) (adn : String → Nat → String),
      st.preambleDone = true → (segLoop adn ls i st).seomun = st.seomun := by
  induction ls with
  | nil => intro i st adn _; rfl
  | cons l ls ih =>
    intro i st adn h
    simp only [segLoop]
    split_ifs <;>
      first
        | rfl
        | exact absurd ‹st.preambleDone = false› (by simp [h])
        | (rw [ih _ _ _ (by simpa using h)])

theorem segLoop_adn_agnostic (ls : List String) :
    ∀ (i : Nat) (st : SegState) (a1 a2 : String → Nat → String),
      (segLoop a1 ls i st).seomun = (segLoop a2 ls i st).seomun ∧
        (segLoop a1 ls i st).jang = (segLoop a2 ls i st).jang := by
  induction ls with
  | nil => intro i st a1 a2; exact ⟨rfl, rfl⟩
  | cons l ls ih =>
    intro i st a1 a2
    simp only [segLoop]
    split_ifs <;> first | exact ⟨rfl, rfl⟩ | exact ih _ _ _ _

theorem segLoop_no_buchik (ls : List String) :
    ∀ (i : Nat) (st : SegState) (adn : String → Nat → String),
      (∀ l ∈ ls, pyStartsWith "부칙" l = false) →
      (segLoop adn ls i st).buchik = "" := by
  induction ls with
  | nil => intro i st adn _; rfl
  | cons l ls ih =>
    intro i st adn h
    have hl := h l (by simp)
    have hls := fun x hx => h x (List.mem_cons_of_mem _ hx)
    simp only [segLoop]
    split_ifs <;>
      first
        | exact absurd ‹pyStartsWith "부칙" l = true› (by simp [hl])
        | exact ih _ _ _ hls

theorem segLoop_no_chapter (ls : List String) :
    ∀ (i : Nat) (st : SegState) (adn : String → Nat → String),
      (∀ l ∈ ls, chapterHeaderMatch l = false ∧
        pyStartsWith "부칙" l = false) →
      st.currentChapter = none →
      segLoop adn ls i st = ⟨st.seomun, st.jang, ""⟩ := by
  induction ls with
  | nil =>
    intro i st adn _ hcc
    show Parsed.mk st.seomun
        (finalizeChapter { st with chapterBuffer := flushCB st }) "" = _
    simp [finalizeChapter, hcc]
  | cons l ls ih =>
    intro i st adn h hcc
    obtain ⟨hc, hb⟩ := h l (by simp)
    have hls := fun x hx => h x (List.mem_cons_of_mem _ hx)
    simp only [segLoop]
    split_ifs <;>
      first
        | exact ih _ _ _ hls hcc
        | exact absurd ‹pyStartsWith "부칙" l = true› (by simp [hb])
        | exact absurd ‹chapterHeaderMatch l = true› (by simp [hc])

theorem segLoop_content (mid : List String) :
    ∀ (rest : List String) (i : Nat) (st : SegState)
      (adn : String → Nat → String),
      (∀ l ∈ mid, chapterHeaderMatch l = false ∧
        pyStartsWith "부칙" l = false ∧ sectionHeaderMatch l = false) →
      segLoop adn (mid ++ rest) i st
        = segLoop adn rest (i + mid.length)
            { st with buffer := st.buffer ++ mid.filter fun l => l ≠ "" } := by
  induction mid with
  | nil =>
    intro rest i st adn _
    simp
  | cons l mid ih =>
    intro rest i st adn h
    obtain ⟨hc, hb, hs⟩ := h l (by simp)
    have hmid := fun x hx => h x (List.mem_cons_of_mem _ hx)
    rw [List.cons_append]
    by_cases hl0 : l = ""
    · subst hl0
      rw [show segLoop adn ("" :: (mid ++ rest)) i st
          = segLoop adn (mid ++ rest) (i + 1) st from rfl]
      rw [ih rest (i + 1) st adn hmid]
      rw [List.filter_cons_of_neg (by decide)]
      rw [List.length_cons]
      rw [show i + 1 + mid.length = i + (mid.length + 1) from by omega]
    · simp only [segLoop]
      rw [if_neg hl0]
      rw [if_neg (by simp [hb])]
      rw [if_neg (by simp [hc])]
      rw [if_neg (by simp [hs])]
      rw [ih rest (i + 1) { st with buffer := st.buffer ++ [l] } adn hmid]
      rw [List.filter_cons_of_pos (by simpa using hl0)]
      rw [List.length_cons]
      rw [show i + 1 + mid.length = i + (mid.length + 1) from by omega]
      rw [show st.buffer ++ [l] ++ List.filter (fun l => decide (l ≠ "")) mid
          = st.buffer ++ l :: List.filter (fun l => decide (l ≠ "")) mid
          from by rw [List.append_assoc]; rfl]

/-- C1: evaluation of both segmenters at an input whose addendum
marker is followed by further lines.  The claim requires the addendum
to be the marker line plus every subsequent line; `law_parser.py`
stores only the marker line, and `parse_law_with_sections` joins the
marker with a doubly shifted slice of the drained line iterator, so
with the marker at index 2 both drop the two following lines, and with
the marker at index 0 the second implementation keeps only the second
following line. -/
theorem claim_C1 :
    (parse_law_structure "제1장 총칙\n제1조(목적) 내용\n부칙\n가\n나").buchik
        = "부칙" ∧
      (parse_law_with_sections
          "제1장 총칙\n제1조(목적) 내용\n부칙\n가\n나").buchik = "부칙" ∧
      (parse_law_with_sections "부칙\n가\n나").buchik = "부칙\n나" ∧
      ("부칙" : String) ≠ "부칙\n가\n나" ∧
      ("부칙\n나" : String) ≠ "부칙\n가\n나" := by
  refine ⟨by decide, by decide, by decide, by decide, by decide⟩

/-- C3 counterexample: on an input with no chapter header and no
addendum marker the preamble is the empty string, not the whole
document text as the claim states. -/
theorem claim_C3_counterexample :
    (parse_law_with_sections "안녕").seomun = "" ∧
      (parse_law_with_sections "안녕").seomun ≠ "안녕" := by
  refine ⟨by decide, by decide⟩

/-- C3 (amended): when no line matches the chapter-header pattern and
no line begins with the addendum marker, the parser returns the empty
preamble (the buffered lines are discarded, they do not become the
preamble), an empty chapter map and an empty addendum. -/
theorem claim_C3 (text : String)
    (h : ∀ l ∈ strippedLines text, chapterHeaderMatch l = false ∧
      pyStartsWith "부칙" l = false) :
    parse_law_with_sections text = ⟨"", [], ""⟩ := by
  unfold parse_law_with_sections
  exact segLoop_no_chapter _ _ _ _ h rfl

/-- C3 witness: a two-line degenerate document. -/
theorem claim_C3_witness :
    (∀ l ∈ strippedLines "안녕하세요\n반갑습니다",
        chapterHeaderMatch l = false ∧ pyStartsWith "부칙" l = false) ∧
      parse_law_with_sections "안녕하세요\n반갑습니다" = ⟨"", [], ""⟩ :=
  ⟨by decide, claim_C3 _ (by decide)⟩

/-- C7: the footer stripper of `create_vector_db.py` compiles its
pattern with the hardcoded law name 고용보험법 for every PDF, so a
footer of a different law (here 근로기준법, the very footer of the
spec's scenario) is left in place, while the pattern built from the
supplied law name as in `law_parser.py` removes it. -/
theorem claim_C7 :
    create_vector_db_footer_sub "법제처 3 국가법령정보센터\n근로기준법"
        = "법제처 3 국가법령정보센터\n근로기준법" ∧
      footer_sub "근로기준법" "법제처 3 국가법령정보센터\n근로기준법" = "" ∧
      ("법제처 3 국가법령정보센터\n근로기준법" : String) ≠ "" := by
  refine ⟨by decide, by decide, by decide⟩

/-- C10 counterexample: the two segmenters disagree on a document that
starts with the addendum marker followed by two lines. -/
theorem claim_C10_counterexample :
    parse_law_structure "부칙\n가\n나"
      ≠ parse_law_with_sections "부칙\n가\n나" := by decide

/-- C10 (amended): the two segmenters agree on the preamble and on the
chapter map for every input text; their addendum strings agree on
every input in which no line begins with the addendum marker (both are
then empty). -/
theorem claim_C10 (text : String) :
    (parse_law_structure text).seomun = (parse_law_with_sections text).seomun ∧
      (parse_law_structure text).jang = (parse_law_with_sections text).jang ∧
      ((∀ l ∈ strippedLines text, pyStartsWith "부칙" l = false) →
        (parse_law_structure text).buchik
          = (parse_law_with_sections text).buchik) := by
  unfold parse_law_structure parse_law_with_sections
  refine ⟨(segLoop_adn_agnostic _ _ _ _ _).1,
    (segLoop_adn_agnostic _ _ _ _ _).2, ?_⟩
  intro h
  rw [segLoop_no_buchik _ _ _ _ h, segLoop_no_buchik _ _ _ _ h]

/-- C10 witness: the addendum agreement at a marker-free document. -/
theorem claim_C10_witness :
    (∀ l ∈ strippedLines "서문\n제1장 총칙\n제1조(목적) 내용",
        pyStartsWith "부칙" l = false) ∧
      (parse_law_structure "서문\n제1장 총칙\n제1조(목적) 내용").buchik
        = (parse_law_with_sections "서문\n제1장 총칙\n제1조(목적) 내용").buchik :=
  ⟨by decide, (claim_C10 _).2.2 (by decide)⟩

theorem headerMatchCore_elim (marker : Char) (cs : List Char)
    (h : headerMatchCore marker cs = true) :
    ∃ r1 m r3, cs = '제' :: r1 ∧
      List.dropWhile Char.isDigit r1 = m :: r3 ∧ m = marker := by
  rw [headerMatchCore.eq_def] at h
  split at h
  · rename_i r1
    rcases hdw : List.dropWhile Char.isDigit r1 with _ | ⟨m, r3⟩
    · rw [hdw] at h
      simp at h
    · rw [hdw] at h
      simp only [Bool.and_eq_true, decide_eq_true_eq] at h
      exact ⟨r1, m, r3, rfl, hdw, h.2.1.1⟩
  · cases h

theorem headerMatchCore_marker (m1 m2 : Char) (cs : List Char)
    (h1 : headerMatchCore m1 cs = true) (h2 : headerMatchCore m2 cs = true) :
    m1 = m2 := by
  obtain ⟨r1, m, r3, hcs, hdw, hm⟩ := headerMatchCore_elim m1 cs h1
  obtain ⟨r1x, mx, r3x, hcsx, hdwx, hmx⟩ := headerMatchCore_elim m2 cs h2
  rw [hcs] at hcsx
  injection hcsx with _ hr
  rw [← hr] at hdwx
  rw [hdw] at hdwx
  injection hdwx with hmm _
  rw [← hm, ← hmx, hmm]

theorem sectionHeaderMatch_not_chapter (l : String)
    (h : sectionHeaderMatch l = true) : chapterHeaderMatch l = false := by
  by_contra hcon
  rw [Bool.not_eq_false] at hcon
  have := headerMatchCore_marker '절' '장' l.data h hcon
  exact absurd this (by decide)

/-- C5 counterexample: with a pre-chapter region containing a blank
line and untrimmed lines, the preamble is the join of the trimmed
non-blank lines, not the verbatim line-joined text preceding the first
chapter header. -/
theorem claim_C5_counterexample :
    (parse_law_structure "A \n\n B\n제1장 총칙\n제1조(목적) 내용").seomun
        = "A\nB" ∧
      (parse_law_structure "A \n\n B\n제1장 총칙\n제1조(목적) 내용").seomun
        ≠ "A \n\n B" := by
  refine ⟨by decide, by decide⟩

/-- C5 (amended): when the lines before the first chapter header are
plain content (no section header, no addendum marker among them), the
preamble of both segmenters equals the stripped line-join of their
trimmed non-blank forms; in particular it is empty when the first
non-blank line is the chapter header. -/
theorem claim_C5 (text : String) (pre : List String) (c : String)
    (rest : List String)
    (hsplit : strippedLines text = pre ++ c :: rest)
    (hc : chapterHeaderMatch c = true)
    (hpre : ∀ l ∈ pre, chapterHeaderMatch l = false ∧
      pyStartsWith "부칙" l = false ∧ sectionHeaderMatch l = false) :
    (parse_law_structure text).seomun
        = pyStrip (strIntercalate "\n" (pre.filter fun l => l ≠ "")) ∧
      (parse_law_with_sections text).seomun
        = pyStrip (strIntercalate "\n" (pre.filter fun l => l ≠ "")) := by
  have key : ∀ adn : String → Nat → String,
      (segLoop adn (strippedLines text) 0 initSeg).seomun
        = pyStrip (strIntercalate "\n" (pre.filter fun l => l ≠ "")) := by
    intro adn
    rw [hsplit]
    rw [segLoop_content pre (c :: rest) 0 initSeg adn hpre]
    have hcne : ¬ c = "" := chapterHeaderMatch_ne_empty c hc
    have hcb : pyStartsWith "부칙" c = false := chapterHeaderMatch_not_buchik c hc
    simp only [segLoop]
    rw [if_neg hcne, if_neg (by simp [hcb]), if_pos hc, if_pos (by rfl)]
    rw [segLoop_seomun_stable rest _ _ adn (by rfl)]
    simp [initSeg]
  exact ⟨key _, key _⟩

/-- C5 witness: the counterexample document, now against the amended
formula. -/
theorem claim_C5_witness :
    (strippedLines "A \n\n B\n제1장 총칙\n제1조(목적) 내용"
        = ["A", "", "B"] ++ "제1장 총칙" :: ["제1조(목적) 내용"] ∧
      chapterHeaderMatch "제1장 총칙" = true ∧
      (∀ l ∈ ["A", "", "B"], chapterHeaderMatch l = false ∧
        pyStartsWith "부칙" l = false ∧ sectionHeaderMatch l = false)) ∧
      ((parse_law_structure "A \n\n B\n제1장 총칙\n제1조(목적) 내용").seomun
        = pyStrip (strIntercalate "\n"
            (["A", "", "B"].filter fun l => l ≠ "")) ∧
      (parse_law_with_sections "A \n\n B\n제1장 총칙\n제1조(목적) 내용").seomun
        = pyStrip (strIntercalate "\n"
            (["A", "", "B"].filter fun l => l ≠ ""))) :=
  ⟨⟨by decide, by decide, by decide⟩,
    claim_C5 "A \n\n B\n제1장 총칙\n제1조(목적) 내용" ["A", "", "B"]
      "제1장 총칙" ["제1조(목적) 내용"] (by decide) (by decide) (by decide)⟩

theorem segLoop_nil (adn : String → Nat → String) (i : Nat) (st : SegState) :
    segLoop adn [] i st
      = ⟨st.seomun, finalizeChapter { st with chapterBuffer := flushCB st },
          ""⟩ := rfl

theorem segLoop_content_end (mid : List String) (i : Nat) (st : SegState)
    (adn : String → Nat → String)
    (h : ∀ l ∈ mid, chapterHeaderMatch l = false ∧
      pyStartsWith "부칙" l = false ∧ sectionHeaderMatch l = false) :
    segLoop adn mid i st
      = segLoop adn [] (i + mid.length)
          { st with buffer := st.buffer ++ mid.filter fun l => l ≠ "" } := by
  conv_lhs => rw [← List.append_nil mid]
  exact segLoop_content mid [] i st adn h

/-- C4: a chapter whose body holds content but no section header
stores its articles under the single default label 조문, and a chapter
whose body holds exactly one section header stores the pre-header
content under the default label and the post-header content under the
section-header text. -/
theorem claim_C4 :
    (∀ (text c : String) (body : List String),
      strippedLines text = c :: body →
      chapterHeaderMatch c = true →
      (∀ l ∈ body, chapterHeaderMatch l = false ∧
        pyStartsWith "부칙" l = false ∧ sectionHeaderMatch l = false) →
      (body.filter fun l => l ≠ "") ≠ [] →
      (parse_law_with_sections text).jang
        = [(c, [("조문", split_articles (body.filter fun l => l ≠ ""))])]) ∧
    (∀ (text c s : String) (body1 body2 : List String),
      strippedLines text = c :: (body1 ++ s :: body2) →
      chapterHeaderMatch c = true →
      sectionHeaderMatch s = true →
      (∀ l ∈ body1, chapterHeaderMatch l = false ∧
        pyStartsWith "부칙" l = false ∧ sectionHeaderMatch l = false) →
      (∀ l ∈ body2, chapterHeaderMatch l = false ∧
        pyStartsWith "부칙" l = false ∧ sectionHeaderMatch l = false) →
      (body1.filter fun l => l ≠ "") ≠ [] →
      (parse_law_with_sections text).jang
        = [(c, [("조문", split_articles (body1.filter fun l => l ≠ "")),
                (s, split_articles (body2.filter fun l => l ≠ ""))])]) := by
  constructor
  · intro text c body hsplit hc hbody hne
    have hcne : ¬ c = "" := chapterHeaderMatch_ne_empty c hc
    have hcb := chapterHeaderMatch_not_buchik c hc
    unfold parse_law_with_sections
    rw [hsplit]
    simp only [segLoop]
    rw [if_neg hcne, if_neg (by simp [hcb]), if_pos hc, if_pos (by rfl)]
    rw [segLoop_content_end body _ _ _ hbody]
    rw [segLoop_nil]
    simp only [finalizeChapter, flushCB]
    have hne2 : ¬ ∀ a ∈ body, a = "" := by simpa using hne
    simp [dictInsert, hne2]
  · intro text c s body1 body2 hsplit hc hs hbody1 hbody2 hne1
    have hcne : ¬ c = "" := chapterHeaderMatch_ne_empty c hc
    have hcb := chapterHeaderMatch_not_buchik c hc
    have hsne : ¬ s = "" := sectionHeaderMatch_ne_empty s hs
    have hsb := sectionHeaderMatch_not_buchik s hs
    have hsc := sectionHeaderMatch_not_chapter s hs
    have hsj : ("조문" : String) ≠ s := Ne.symm (sectionHeaderMatch_ne_jomun s hs)
    unfold parse_law_with_sections
    rw [hsplit]
    simp only [segLoop]
    rw [if_neg hcne, if_neg (by simp [hcb]), if_pos hc, if_pos (by rfl)]
    rw [segLoop_content body1 (s :: body2) _ _ _ hbody1]
    simp only [segLoop]
    rw [if_neg hsne, if_neg (by simp [hsb]), if_neg (by simp [hsc]), if_pos hs]
    rw [segLoop_content_end body2 _ _ _ hbody2]
    rw [segLoop_nil]
    simp only [finalizeChapter, flushCB]
    have hne2 : ¬ ∀ a ∈ body1, a = "" := by simpa using hne1
    simp [dictInsert, hne2, hsj]

/-- C4 witness: one chapter with two plain articles, and one chapter
with an article before and after a single section header. -/
theorem claim_C4_witness :
    (parse_law_with_sections
        "제1장 총칙\n제1조(목적) 목적이다\n제2조(정의) 정의이다").jang
      = [("제1장 총칙", [("조문", split_articles
          (["제1조(목적) 목적이다", "제2조(정의) 정의이다"].filter
            fun l => l ≠ ""))])] ∧
    (parse_law_with_sections
        "제1장 총칙\n제1조(목적) 갑\n제1절 통칙\n제2조(정의) 을").jang
      = [("제1장 총칙",
          [("조문", split_articles (["제1조(목적) 갑"].filter fun l => l ≠ "")),
           ("제1절 통칙", split_articles
              (["제2조(정의) 을"].filter fun l => l ≠ ""))])] :=
  ⟨claim_C4.1 "제1장 총칙\n제1조(목적) 목적이다\n제2조(정의) 정의이다"
      "제1장 총칙" ["제1조(목적) 목적이다", "제2조(정의) 정의이다"]
      (by decide) (by decide) (by decide) (by decide),
    claim_C4.2 "제1장 총칙\n제1조(목적) 갑\n제1절 통칙\n제2조(정의) 을"
      "제1장 총칙" "제1절 통칙" ["제1조(목적) 갑"] ["제2조(정의) 을"]
      (by decide) (by decide) (by decide) (by decide) (by decide) (by decide)⟩

/-- C9: when the same chapter-header line occurs twice, the chapter
map keeps exactly one entry under that header, holding the content of
the last occurrence; the earlier content is overwritten without an
error. -/
theorem claim_C9 (text c : String) (body1 body2 : List String)
    (hsplit : strippedLines text = c :: (body1 ++ c :: body2))
    (hc : chapterHeaderMatch c = true)
    (hbody1 : ∀ l ∈ body1, chapterHeaderMatch l = false ∧
      pyStartsWith "부칙" l = false ∧ sectionHeaderMatch l = false)
    (hbody2 : ∀ l ∈ body2, chapterHeaderMatch l = false ∧
      pyStartsWith "부칙" l = false ∧ sectionHeaderMatch l = false)
    (hne2 : (body2.filter fun l => l ≠ "") ≠ []) :
    (parse_law_with_sections text).jang
      = [(c, [("조문", split_articles (body2.filter fun l => l ≠ ""))])] := by
  have hcne : ¬ c = "" := chapterHeaderMatch_ne_empty c hc
  have hcb := chapterHeaderMatch_not_buchik c hc
  unfold parse_law_with_sections
  rw [hsplit]
  simp only [segLoop]
  rw [if_neg hcne, if_neg (by simp [hcb]), if_pos hc, if_pos (by rfl)]
  rw [segLoop_content body1 (c :: body2) _ _ _ hbody1]
  simp only [segLoop]
  rw [if_neg hcne, if_neg (by simp [hcb]), if_pos hc]
  rw [if_neg (by simp), if_pos (by rfl)]
  rw [segLoop_content_end body2 _ _ _ hbody2]
  rw [segLoop_nil]
  simp only [finalizeChapter, flushCB]
  have hne2x : ¬ ∀ a ∈ body2, a = "" := by simpa using hne2
  simp [dictInsert, hne2x]

/-- C9 witness: the same chapter header twice, one article under
each occurrence; only the second article survives. -/
theorem claim_C9_witness :
    (strippedLines "제1장 총칙\n제1조(목적) 갑\n제1장 총칙\n제2조(정의) 을"
        = "제1장 총칙" :: (["제1조(목적) 갑"]
            ++ "제1장 총칙" :: ["제2조(정의) 을"])) ∧
      (parse_law_with_sections
          "제1장 총칙\n제1조(목적) 갑\n제1장 총칙\n제2조(정의) 을").jang
        = [("제1장 총칙", [("조문", split_articles
            (["제2조(정의) 을"].filter fun l => l ≠ ""))])] :=
  ⟨by decide,
    claim_C9 "제1장 총칙\n제1조(목적) 갑\n제1장 총칙\n제2조(정의) 을"
      "제1장 총칙" ["제1조(목적) 갑"] ["제2조(정의) 을"]
      (by decide) (by decide) (by decide) (by decide) (by decide)⟩

end LawRag
